import Mathlib

/-!
# Verification of the realtime audio processor core

Shallow embedding of `src/ring_buffer.c` and `src/effects.c`.

Modelling conventions:
* C `float` samples are modelled as real numbers (`ℝ`); the ring buffer only
  moves sample values, and the effects perform real arithmetic on them.
* C `size_t` arithmetic is modelled as `Nat` arithmetic modulo `2 ^ 64`
  (`SIZE_MOD`); unsigned wrap-around subtraction `w - r` becomes
  `(w + SIZE_MOD - r) % SIZE_MOD` on values `< SIZE_MOD`.
* The heap array `float *buffer` is modelled as a function `Nat → ℝ`;
  `memcpy` into the array becomes a range overwrite (`memcpy_in`), and
  `memcpy` out of the array becomes a list of the copied samples
  (`memcpy_out`).
* C functions that mutate a struct through a pointer become functions from
  the struct value to the updated struct value (paired with the C return
  value when there is one).
* `malloc` failure is not modelled: `ring_buffer_create` is analysed under
  the assumption that allocation succeeds, which is the case the claims
  address.
-/

/-- `size_t` arithmetic in the source is modulo `2 ^ 64`. -/
def SIZE_MOD : Nat := 2 ^ 64

/-- `static bool is_power_of_2(size_t n)` from `ring_buffer.c`:
`n > 0 && (n & (n - 1)) == 0`. -/
def is_power_of_2 (n : Nat) : Bool :=
  decide (n > 0) && (n &&& (n - 1) == 0)

/-- `ring_buffer_t` from `ring_buffer.h`: backing storage, capacity, the
bitmask `capacity - 1`, and the two atomic cursors. -/
structure ring_buffer_t where
  buffer : Nat → ℝ
  capacity : Nat
  mask : Nat
  write_index : Nat
  read_index : Nat

/-- `memcpy(&dst[dstPos], src, src.length * sizeof(float))` on the modelled
array: positions `dstPos ≤ i < dstPos + src.length` take the corresponding
source sample, other positions keep their value. -/
def memcpy_in (dst : Nat → ℝ) (dstPos : Nat) (src : List ℝ) : Nat → ℝ :=
  fun i =>
    if dstPos ≤ i ∧ i < dstPos + src.length then src.getD (i - dstPos) 0
    else dst i

/-- `memcpy(out, &src[srcPos], len * sizeof(float))`: the list of `len`
samples copied out of the modelled array starting at `srcPos`. -/
def memcpy_out (src : Nat → ℝ) (srcPos len : Nat) : List ℝ :=
  (List.range len).map (fun i => src (srcPos + i))

/-- `ring_buffer_create` (`ring_buffer.c`): reject capacities that are not a
positive power of two, otherwise allocate and zero the storage and start
both cursors at zero (allocation success is assumed, see the header
comment). -/
def ring_buffer_create (capacity_samples : Nat) : Option ring_buffer_t :=
  if is_power_of_2 capacity_samples then
    some { buffer := fun _ => 0
           capacity := capacity_samples
           mask := capacity_samples - 1
           write_index := 0
           read_index := 0 }
  else
    none

/-- `ring_buffer_read_available`: `w - r` in `size_t` arithmetic. -/
def ring_buffer_read_available (rb : ring_buffer_t) : Nat :=
  (rb.write_index + SIZE_MOD - rb.read_index) % SIZE_MOD

/-- `ring_buffer_write_available`: `capacity - (w - r)` in `size_t`
arithmetic. -/
def ring_buffer_write_available (rb : ring_buffer_t) : Nat :=
  (rb.capacity + SIZE_MOD - ring_buffer_read_available rb) % SIZE_MOD

/-- `ring_buffer_write` (`ring_buffer.c` lines 60-89): clamp the request to
`write_available`, early-return on zero, copy in up to two chunks around the
wrap, then advance the write cursor.  Returns the count written and the
updated buffer. -/
def ring_buffer_write (rb : ring_buffer_t) (data : List ℝ) (count : Nat) :
    Nat × ring_buffer_t :=
  let available := ring_buffer_write_available rb
  let to_write := if count < available then count else available
  if to_write = 0 then (0, rb)
  else
    let w := rb.write_index
    let write_pos := w &&& rb.mask
    let chunk1₀ := rb.capacity - write_pos
    let chunk1 := if chunk1₀ > to_write then to_write else chunk1₀
    let buf1 := memcpy_in rb.buffer write_pos (data.take chunk1)
    let buf2 :=
      if to_write > chunk1 then
        memcpy_in buf1 0 ((data.drop chunk1).take (to_write - chunk1))
      else buf1
    (to_write,
     { rb with buffer := buf2, write_index := (w + to_write) % SIZE_MOD })

/-- `ring_buffer_read` (`ring_buffer.c` lines 91-120): clamp the request to
`read_available`, early-return on zero, copy out up to two chunks around the
wrap, then advance the read cursor.  Returns the samples read (the C
function fills the caller's array and returns their number, which is the
length of this list) and the updated buffer. -/
def ring_buffer_read (rb : ring_buffer_t) (count : Nat) :
    List ℝ × ring_buffer_t :=
  let available := ring_buffer_read_available rb
  let to_read := if count < available then count else available
  if to_read = 0 then ([], rb)
  else
    let r := rb.read_index
    let read_pos := r &&& rb.mask
    let chunk1₀ := rb.capacity - read_pos
    let chunk1 := if chunk1₀ > to_read then to_read else chunk1₀
    let out1 := memcpy_out rb.buffer read_pos chunk1
    let out2 :=
      if to_read > chunk1 then memcpy_out rb.buffer 0 (to_read - chunk1)
      else []
    (out1 ++ out2,
     { rb with read_index := (r + to_read) % SIZE_MOD })

/-- `ring_buffer_reset`: zero both cursors and the storage. -/
def ring_buffer_reset (rb : ring_buffer_t) : ring_buffer_t :=
  { rb with buffer := fun _ => 0, write_index := 0, read_index := 0 }

/-! ## Power-of-two characterisation of `is_power_of_2` -/

lemma testBit_all_false_eq_zero {a : Nat}
    (h : ∀ i, a.testBit i = false) : a = 0 :=
  Nat.eq_of_testBit_eq (fun i => by simp [h i])

lemma odd_land_pred {a : Nat} (ha : 0 < a)
    (h : (2 * a + 1) &&& (2 * a + 1 - 1) = 0) : False := by
  have hex : ∃ i, a.testBit i = true := by
    by_contra hno
    push_neg at hno
    have : a = 0 := testBit_all_false_eq_zero (fun i => by
      have := hno i
      simpa using this)
    omega
  obtain ⟨i, hi⟩ := hex
  have hbit : ((2 * a + 1) &&& (2 * a + 1 - 1)).testBit (i + 1) = false := by
    rw [h]; simp
  rw [Nat.testBit_land, Nat.testBit_add_one, Nat.testBit_add_one] at hbit
  have h1 : (2 * a + 1) / 2 = a := by omega
  have h2 : (2 * a + 1 - 1) / 2 = a := by omega
  rw [h1, h2, hi] at hbit
  simp at hbit

lemma even_land_pred {a : Nat} (ha : 0 < a)
    (h : (2 * a) &&& (2 * a - 1) = 0) : a &&& (a - 1) = 0 := by
  apply Nat.eq_of_testBit_eq
  intro i
  have hbit : ((2 * a) &&& (2 * a - 1)).testBit (i + 1) = false := by
    rw [h]; simp
  rw [Nat.testBit_land, Nat.testBit_add_one, Nat.testBit_add_one] at hbit
  have h1 : 2 * a / 2 = a := by omega
  have h2 : (2 * a - 1) / 2 = a - 1 := by omega
  rw [h1, h2] at hbit
  rw [Nat.testBit_land, hbit]
  simp

lemma pow2_of_land_pred :
    ∀ n : Nat, 0 < n → n &&& (n - 1) = 0 → ∃ k, n = 2 ^ k := by
  intro n
  induction n using Nat.strong_induction_on with
  | _ n ih =>
    intro hn h
    rcases Nat.even_or_odd n with ⟨a, hae⟩ | ⟨a, hao⟩
    · have hna : n = 2 * a := by omega
      have ha : 0 < a := by omega
      have hland : a &&& (a - 1) = 0 := by
        apply even_land_pred ha
        rw [← hna]
        exact h
      obtain ⟨k, hk⟩ := ih a (by omega) ha hland
      exact ⟨k + 1, by rw [hna, hk]; ring⟩
    · rcases Nat.eq_zero_or_pos a with ha0 | ha
      · exact ⟨0, by omega⟩
      · exact absurd (by simpa [hao] using h) (fun hh => odd_land_pred ha hh)

lemma is_power_of_2_iff (n : Nat) :
    is_power_of_2 n = true ↔ ∃ k, n = 2 ^ k := by
  constructor
  · intro h
    rw [is_power_of_2, Bool.and_eq_true, decide_eq_true_eq, beq_iff_eq] at h
    exact pow2_of_land_pred n h.1 h.2
  · rintro ⟨k, rfl⟩
    rw [is_power_of_2, Bool.and_eq_true, decide_eq_true_eq, beq_iff_eq]
    refine ⟨Nat.pos_pow_of_pos k (by omega), ?_⟩
    rw [Nat.and_pow_two_sub_one_eq_mod]
    exact Nat.mod_self _

lemma mask_and_eq_mod {cap : Nat} (k : Nat) (hcap : cap = 2 ^ k) (x : Nat) :
    x &&& (cap - 1) = x % cap := by
  subst hcap
  exact Nat.and_pow_two_sub_one_eq_mod x k

/-! ## Sequential operation model and the cursor invariant -/

/-- One sequential call on the ring buffer (the SPSC buffer used by a single
agent, as in the batch pipeline): a `write`, a `read`, or a `reset`. -/
inductive RBOp where
  | write (data : List ℝ) (count : Nat)
  | read (count : Nat)
  | reset

/-- The state after one call (return values discarded). -/
def rbStep (rb : ring_buffer_t) : RBOp → ring_buffer_t
  | .write data count => (ring_buffer_write rb data count).2
  | .read count => (ring_buffer_read rb count).2
  | .reset => ring_buffer_reset rb

/-- The state after a sequence of calls. -/
def rbRun (rb : ring_buffer_t) (ops : List RBOp) : ring_buffer_t :=
  ops.foldl rbStep rb

/-- State invariant of the ring buffer: power-of-two capacity representable
in `size_t`, the mask field caches `capacity - 1`, both cursors are reduced
modulo `2 ^ 64`, and at most `capacity` samples are pending. -/
structure rb_inv (rb : ring_buffer_t) : Prop where
  pow : ∃ k, k < 64 ∧ rb.capacity = 2 ^ k
  mask_eq : rb.mask = rb.capacity - 1
  w_lt : rb.write_index < SIZE_MOD
  r_lt : rb.read_index < SIZE_MOD
  ra_le : ring_buffer_read_available rb ≤ rb.capacity

lemma rb_inv.cap_pos {rb : ring_buffer_t} (h : rb_inv rb) : 0 < rb.capacity := by
  obtain ⟨k, _, hk⟩ := h.pow
  rw [hk]; positivity

lemma rb_inv.cap_lt {rb : ring_buffer_t} (h : rb_inv rb) :
    rb.capacity < SIZE_MOD := by
  obtain ⟨k, hk64, hk⟩ := h.pow
  rw [hk, SIZE_MOD]
  exact Nat.pow_lt_pow_right (by omega) hk64

lemma rb_inv.cap_dvd {rb : ring_buffer_t} (h : rb_inv rb) :
    rb.capacity ∣ SIZE_MOD := by
  obtain ⟨k, hk64, hk⟩ := h.pow
  rw [hk, SIZE_MOD]
  exact pow_dvd_pow 2 (by omega)

/-- `write_available` is exactly `capacity - read_available` under the
invariant. -/
lemma write_available_eq {rb : ring_buffer_t} (h : rb_inv rb) :
    ring_buffer_write_available rb =
      rb.capacity - ring_buffer_read_available rb := by
  have hcap := h.cap_lt
  have hra := h.ra_le
  rw [ring_buffer_write_available]
  rw [SIZE_MOD] at *
  omega

/-- Advancing the write cursor by `t ≤ write_available` grows
`read_available` by exactly `t`. -/
lemma read_available_after_write {rb : ring_buffer_t} (h : rb_inv rb)
    (t : Nat) (buf : Nat → ℝ)
    (ht : t ≤ rb.capacity - ring_buffer_read_available rb) :
    ring_buffer_read_available
        { rb with buffer := buf,
                  write_index := (rb.write_index + t) % SIZE_MOD } =
      ring_buffer_read_available rb + t := by
  have hw := h.w_lt
  have hr := h.r_lt
  have hcap := h.cap_lt
  have hra := h.ra_le
  simp only [ring_buffer_read_available, SIZE_MOD] at *
  omega

/-- Advancing the read cursor by `t ≤ read_available` shrinks
`read_available` by exactly `t`. -/
lemma read_available_after_read {rb : ring_buffer_t} (h : rb_inv rb)
    (t : Nat) (ht : t ≤ ring_buffer_read_available rb) :
    ring_buffer_read_available
        { rb with read_index := (rb.read_index + t) % SIZE_MOD } =
      ring_buffer_read_available rb - t := by
  have hw := h.w_lt
  have hr := h.r_lt
  have hra := h.ra_le
  simp only [ring_buffer_read_available, SIZE_MOD] at *
  omega

lemma read_available_congr (rb rb' : ring_buffer_t)
    (hw : rb'.write_index = rb.write_index)
    (hr : rb'.read_index = rb.read_index) :
    ring_buffer_read_available rb' = ring_buffer_read_available rb := by
  simp [ring_buffer_read_available, hw, hr]

/-- Return value and cursor fields of `ring_buffer_write`: it writes exactly
`min count write_available` and advances only the write cursor, by that
amount (modulo `2 ^ 64`). -/
lemma ring_buffer_write_fields (rb : ring_buffer_t) (data : List ℝ)
    (count : Nat) (hw : rb.write_index < SIZE_MOD) :
    (ring_buffer_write rb data count).1 =
      min count (ring_buffer_write_available rb) ∧
    (ring_buffer_write rb data count).2.capacity = rb.capacity ∧
    (ring_buffer_write rb data count).2.mask = rb.mask ∧
    (ring_buffer_write rb data count).2.read_index = rb.read_index ∧
    (ring_buffer_write rb data count).2.write_index =
      (rb.write_index + min count (ring_buffer_write_available rb)) %
        SIZE_MOD := by
  have hmin :
      (if count < ring_buffer_write_available rb then count
       else ring_buffer_write_available rb) =
        min count (ring_buffer_write_available rb) := by
    split <;> omega
  rw [ring_buffer_write]
  simp only [hmin]
  split
  · rename_i h0
    refine ⟨by simp [h0], rfl, rfl, rfl, ?_⟩
    rw [h0, Nat.add_zero, Nat.mod_eq_of_lt hw]
  · exact ⟨rfl, rfl, rfl, rfl, rfl⟩

/-- Return value and cursor fields of `ring_buffer_read`: it reads exactly
`min count read_available` samples and advances only the read cursor, by
that amount (modulo `2 ^ 64`); the storage is not modified. -/
lemma ring_buffer_read_fields (rb : ring_buffer_t) (count : Nat)
    (hr : rb.read_index < SIZE_MOD) :
    (ring_buffer_read rb count).1.length =
      min count (ring_buffer_read_available rb) ∧
    (ring_buffer_read rb count).2.capacity = rb.capacity ∧
    (ring_buffer_read rb count).2.mask = rb.mask ∧
    (ring_buffer_read rb count).2.buffer = rb.buffer ∧
    (ring_buffer_read rb count).2.write_index = rb.write_index ∧
    (ring_buffer_read rb count).2.read_index =
      (rb.read_index + min count (ring_buffer_read_available rb)) %
        SIZE_MOD := by
  have hmin :
      (if count < ring_buffer_read_available rb then count
       else ring_buffer_read_available rb) =
        min count (ring_buffer_read_available rb) := by
    split <;> omega
  rw [ring_buffer_read]
  simp only [hmin]
  split
  · rename_i h0
    refine ⟨by simp [h0], rfl, rfl, rfl, rfl, ?_⟩
    rw [h0, Nat.add_zero, Nat.mod_eq_of_lt hr]
  · refine ⟨?_, rfl, rfl, rfl, rfl, rfl⟩
    simp only [List.length_append, memcpy_out, List.length_map,
      List.length_range, List.length_nil]
    split <;> split <;> simp <;> omega

/-- A write to a full buffer returns 0 and leaves the state unchanged. -/
lemma ring_buffer_write_full (rb : ring_buffer_t) (data : List ℝ)
    (count : Nat) (h : ring_buffer_write_available rb = 0) :
    ring_buffer_write rb data count = (0, rb) := by
  rw [ring_buffer_write]
  simp [h]

/-- A read from an empty buffer returns no samples and leaves the state
unchanged. -/
lemma ring_buffer_read_empty (rb : ring_buffer_t) (count : Nat)
    (h : ring_buffer_read_available rb = 0) :
    ring_buffer_read rb count = ([], rb) := by
  rw [ring_buffer_read]
  simp [h]

lemma ra_add_write (w r cap t : Nat) (hw : w < SIZE_MOD) (hr : r < SIZE_MOD)
    (hcap : cap < SIZE_MOD) (hra : (w + SIZE_MOD - r) % SIZE_MOD ≤ cap)
    (ht : t ≤ cap - (w + SIZE_MOD - r) % SIZE_MOD) :
    ((w + t) % SIZE_MOD + SIZE_MOD - r) % SIZE_MOD
      = (w + SIZE_MOD - r) % SIZE_MOD + t := by
  simp only [SIZE_MOD] at *
  omega

lemma ra_sub_read (w r t : Nat) (hw : w < SIZE_MOD) (hr : r < SIZE_MOD)
    (ht : t ≤ (w + SIZE_MOD - r) % SIZE_MOD) :
    (w + SIZE_MOD - (r + t) % SIZE_MOD) % SIZE_MOD
      = (w + SIZE_MOD - r) % SIZE_MOD - t := by
  simp only [SIZE_MOD] at *
  omega

/-- `ring_buffer_write` preserves the state invariant, keeps the capacity,
and grows `read_available` by the number written. -/
lemma ring_buffer_write_inv {rb : ring_buffer_t} (h : rb_inv rb)
    (data : List ℝ) (count : Nat) :
    rb_inv (ring_buffer_write rb data count).2 ∧
    (ring_buffer_write rb data count).2.capacity = rb.capacity ∧
    ring_buffer_read_available (ring_buffer_write rb data count).2 =
      ring_buffer_read_available rb +
        min count (ring_buffer_write_available rb) := by
  obtain ⟨h1, h2, h3, h4, h5⟩ := ring_buffer_write_fields rb data count h.w_lt
  have hwa := write_available_eq h
  have ht : min count (ring_buffer_write_available rb) ≤
      rb.capacity - ring_buffer_read_available rb := by
    omega
  have hra' : ring_buffer_read_available (ring_buffer_write rb data count).2 =
      ring_buffer_read_available rb +
        min count (ring_buffer_write_available rb) := by
    simp only [ring_buffer_read_available, h4, h5]
    exact ra_add_write rb.write_index rb.read_index rb.capacity _
      h.w_lt h.r_lt h.cap_lt h.ra_le ht
  refine ⟨⟨?_, ?_, ?_, ?_, ?_⟩, h2, hra'⟩
  · rw [h2]; exact h.pow
  · rw [h3, h2]; exact h.mask_eq
  · rw [h5]; exact Nat.mod_lt _ (by norm_num [SIZE_MOD])
  · rw [h4]; exact h.r_lt
  · rw [hra', h2]
    have := h.ra_le
    omega

/-- `ring_buffer_read` preserves the state invariant, keeps the capacity,
and shrinks `read_available` by the number read. -/
lemma ring_buffer_read_inv {rb : ring_buffer_t} (h : rb_inv rb)
    (count : Nat) :
    rb_inv (ring_buffer_read rb count).2 ∧
    (ring_buffer_read rb count).2.capacity = rb.capacity ∧
    ring_buffer_read_available (ring_buffer_read rb count).2 =
      ring_buffer_read_available rb -
        min count (ring_buffer_read_available rb) := by
  obtain ⟨h1, h2, h3, h4, h5, h6⟩ := ring_buffer_read_fields rb count h.r_lt
  have hra' : ring_buffer_read_available (ring_buffer_read rb count).2 =
      ring_buffer_read_available rb -
        min count (ring_buffer_read_available rb) := by
    simp only [ring_buffer_read_available, h5, h6]
    exact ra_sub_read rb.write_index rb.read_index _ h.w_lt h.r_lt
      (by omega)
  refine ⟨⟨?_, ?_, ?_, ?_, ?_⟩, h2, hra'⟩
  · rw [h2]; exact h.pow
  · rw [h3, h2]; exact h.mask_eq
  · rw [h5]; exact h.w_lt
  · rw [h6]; exact Nat.mod_lt _ (by norm_num [SIZE_MOD])
  · rw [hra', h2]
    have := h.ra_le
    omega

/-- `ring_buffer_reset` preserves the state invariant and empties the
buffer. -/
lemma ring_buffer_reset_inv {rb : ring_buffer_t} (h : rb_inv rb) :
    rb_inv (ring_buffer_reset rb) ∧
    (ring_buffer_reset rb).capacity = rb.capacity ∧
    ring_buffer_read_available (ring_buffer_reset rb) = 0 := by
  have hra : ring_buffer_read_available (ring_buffer_reset rb) = 0 := by
    simp [ring_buffer_read_available, ring_buffer_reset]
  refine ⟨⟨h.pow, h.mask_eq, ?_, ?_, ?_⟩, rfl, hra⟩
  · simp [ring_buffer_reset, SIZE_MOD]
  · simp [ring_buffer_reset, SIZE_MOD]
  · rw [hra]; omega

/-- A freshly created buffer satisfies the state invariant. -/
lemma ring_buffer_create_inv {cap : Nat} {rb : ring_buffer_t}
    (hlt : cap < SIZE_MOD) (h : ring_buffer_create cap = some rb) :
    rb_inv rb ∧ rb.capacity = cap ∧ ring_buffer_read_available rb = 0 := by
  rw [ring_buffer_create] at h
  split at h
  · rename_i hp
    obtain ⟨k, hk⟩ := (is_power_of_2_iff cap).mp hp
    obtain rfl := (Option.some_inj).mp h
    have hra : ring_buffer_read_available
        { buffer := fun _ => (0 : ℝ), capacity := cap, mask := cap - 1,
          write_index := 0, read_index := 0 } = 0 := by
      simp [ring_buffer_read_available]
    refine ⟨⟨⟨k, ?_, hk⟩, rfl, ?_, ?_, ?_⟩, rfl, hra⟩
    · by_contra hk64
      push_neg at hk64
      rw [hk] at hlt
      rw [SIZE_MOD] at hlt
      have hle : (2 : Nat) ^ 64 ≤ 2 ^ k := Nat.pow_le_pow_right (by omega) hk64
      omega
    · simp [SIZE_MOD]
    · simp [SIZE_MOD]
    · rw [hra]; omega
  · exact absurd h (by simp)

lemma rb_inv_step {rb : ring_buffer_t} (h : rb_inv rb) (op : RBOp) :
    rb_inv (rbStep rb op) ∧ (rbStep rb op).capacity = rb.capacity := by
  cases op with
  | write data count =>
      exact ⟨(ring_buffer_write_inv h data count).1,
        (ring_buffer_write_inv h data count).2.1⟩
  | read count =>
      exact ⟨(ring_buffer_read_inv h count).1,
        (ring_buffer_read_inv h count).2.1⟩
  | reset =>
      exact ⟨(ring_buffer_reset_inv h).1, (ring_buffer_reset_inv h).2.1⟩

lemma rb_inv_run {rb : ring_buffer_t} (h : rb_inv rb) (ops : List RBOp) :
    rb_inv (rbRun rb ops) ∧ (rbRun rb ops).capacity = rb.capacity := by
  induction ops generalizing rb with
  | nil => exact ⟨h, rfl⟩
  | cons op rest ih =>
      obtain ⟨h1, h2⟩ := rb_inv_step h op
      obtain ⟨h3, h4⟩ := ih h1
      exact ⟨h3, by rw [rbRun] at *; simp only [List.foldl_cons]; omega⟩

/-- Claim C2. For every ring buffer state reachable from a successful create
by any sequence of write, read and reset operations (sequential use), the
invariant `0 ≤ write_index − read_index ≤ capacity` holds — in `size_t`
arithmetic the difference `write_index − read_index` is exactly
`ring_buffer_read_available`, which is a `Nat` (hence `≥ 0`) and is bounded
by the capacity — and consequently
`read_available(rb) + write_available(rb) = capacity`. -/
theorem ring_buffer_reachable_invariant (cap : Nat) (hlt : cap < SIZE_MOD)
    (rb0 : ring_buffer_t) (hcreate : ring_buffer_create cap = some rb0)
    (ops : List RBOp) :
    ring_buffer_read_available (rbRun rb0 ops) ≤ (rbRun rb0 ops).capacity ∧
    ring_buffer_read_available (rbRun rb0 ops) +
        ring_buffer_write_available (rbRun rb0 ops) =
      (rbRun rb0 ops).capacity ∧
    (rbRun rb0 ops).capacity = cap := by
  obtain ⟨hinv, hcap, -⟩ := ring_buffer_create_inv hlt hcreate
  obtain ⟨hinv', hcap'⟩ := rb_inv_run hinv ops
  have hwa := write_available_eq hinv'
  have hra := hinv'.ra_le
  exact ⟨hra, by omega, by omega⟩

/-- Witness for the reachable-state invariant: capacity 4, a concrete
write/read/reset sequence. -/
theorem ring_buffer_reachable_invariant_witness :
    ring_buffer_read_available (rbRun ⟨fun _ => 0, 4, 3, 0, 0⟩
        [RBOp.write [1, 2] 2, RBOp.read 1, RBOp.reset]) ≤
      (rbRun ⟨fun _ => 0, 4, 3, 0, 0⟩
        [RBOp.write [1, 2] 2, RBOp.read 1, RBOp.reset]).capacity ∧
    ring_buffer_read_available (rbRun ⟨fun _ => 0, 4, 3, 0, 0⟩
        [RBOp.write [1, 2] 2, RBOp.read 1, RBOp.reset]) +
        ring_buffer_write_available (rbRun ⟨fun _ => 0, 4, 3, 0, 0⟩
        [RBOp.write [1, 2] 2, RBOp.read 1, RBOp.reset]) =
      (rbRun ⟨fun _ => 0, 4, 3, 0, 0⟩
        [RBOp.write [1, 2] 2, RBOp.read 1, RBOp.reset]).capacity ∧
    (rbRun ⟨fun _ => 0, 4, 3, 0, 0⟩
        [RBOp.write [1, 2] 2, RBOp.read 1, RBOp.reset]).capacity = 4 :=
  ring_buffer_reachable_invariant 4 (by decide) ⟨fun _ => 0, 4, 3, 0, 0⟩
    rfl [RBOp.write [1, 2] 2, RBOp.read 1, RBOp.reset]

/-- Claim C3. `write` returns exactly `min(count, write_available)` and
advances the write cursor by that amount (in `size_t` arithmetic), leaving
the read cursor alone; `read` returns exactly `min(count, read_available)`
samples and advances the read cursor by that amount, leaving the write
cursor alone.  Both operations are total functions (they never fail); a
request exceeding availability saturates, and in particular a write to a
full buffer and a read from an empty buffer return 0 samples and leave the
entire state unchanged. -/
theorem ring_buffer_write_read_saturate (rb : ring_buffer_t)
    (data : List ℝ) (count count' : Nat)
    (hw : rb.write_index < SIZE_MOD) (hr : rb.read_index < SIZE_MOD) :
    (ring_buffer_write rb data count).1 =
      min count (ring_buffer_write_available rb) ∧
    (ring_buffer_write rb data count).2.write_index =
      (rb.write_index + min count (ring_buffer_write_available rb)) %
        SIZE_MOD ∧
    (ring_buffer_write rb data count).2.read_index = rb.read_index ∧
    (ring_buffer_read rb count').1.length =
      min count' (ring_buffer_read_available rb) ∧
    (ring_buffer_read rb count').2.read_index =
      (rb.read_index + min count' (ring_buffer_read_available rb)) %
        SIZE_MOD ∧
    (ring_buffer_read rb count').2.write_index = rb.write_index ∧
    (ring_buffer_write_available rb = 0 →
      ring_buffer_write rb data count = (0, rb)) ∧
    (ring_buffer_read_available rb = 0 →
      ring_buffer_read rb count' = ([], rb)) := by
  obtain ⟨w1, -, -, w4, w5⟩ := ring_buffer_write_fields rb data count hw
  obtain ⟨r1, -, -, -, r5, r6⟩ := ring_buffer_read_fields rb count' hr
  exact ⟨w1, w5, w4, r1, r6, r5,
    ring_buffer_write_full rb data count,
    ring_buffer_read_empty rb count'⟩

/-- Witness for the write/read saturation properties on a fresh capacity-4
buffer, writing 3 samples with request 5 and reading with request 2. -/
theorem ring_buffer_write_read_saturate_witness :
    (ring_buffer_write ⟨fun _ => 0, 4, 3, 0, 0⟩ [1, 2, 3] 5).1 =
      min 5 (ring_buffer_write_available ⟨fun _ => 0, 4, 3, 0, 0⟩) ∧
    (ring_buffer_write ⟨fun _ => 0, 4, 3, 0, 0⟩ [1, 2, 3] 5).2.write_index =
      ((⟨fun _ => 0, 4, 3, 0, 0⟩ : ring_buffer_t).write_index +
          min 5 (ring_buffer_write_available ⟨fun _ => 0, 4, 3, 0, 0⟩)) %
        SIZE_MOD ∧
    (ring_buffer_write ⟨fun _ => 0, 4, 3, 0, 0⟩ [1, 2, 3] 5).2.read_index =
      (⟨fun _ => 0, 4, 3, 0, 0⟩ : ring_buffer_t).read_index ∧
    (ring_buffer_read ⟨fun _ => 0, 4, 3, 0, 0⟩ 2).1.length =
      min 2 (ring_buffer_read_available ⟨fun _ => 0, 4, 3, 0, 0⟩) ∧
    (ring_buffer_read ⟨fun _ => 0, 4, 3, 0, 0⟩ 2).2.read_index =
      ((⟨fun _ => 0, 4, 3, 0, 0⟩ : ring_buffer_t).read_index +
          min 2 (ring_buffer_read_available ⟨fun _ => 0, 4, 3, 0, 0⟩)) %
        SIZE_MOD ∧
    (ring_buffer_read ⟨fun _ => 0, 4, 3, 0, 0⟩ 2).2.write_index =
      (⟨fun _ => 0, 4, 3, 0, 0⟩ : ring_buffer_t).write_index ∧
    (ring_buffer_write_available ⟨fun _ => 0, 4, 3, 0, 0⟩ = 0 →
      ring_buffer_write ⟨fun _ => 0, 4, 3, 0, 0⟩ [1, 2, 3] 5 =
        (0, ⟨fun _ => 0, 4, 3, 0, 0⟩)) ∧
    (ring_buffer_read_available ⟨fun _ => 0, 4, 3, 0, 0⟩ = 0 →
      ring_buffer_read ⟨fun _ => 0, 4, 3, 0, 0⟩ 2 =
        ([], ⟨fun _ => 0, 4, 3, 0, 0⟩)) :=
  ring_buffer_write_read_saturate ⟨fun _ => 0, 4, 3, 0, 0⟩ [1, 2, 3] 5 2
    (by decide) (by decide)

/-- Claim C4. `create(capacity)` returns no instance for every capacity that
is not a positive power of two, and (allocation success being assumed by
the model) succeeds for every positive power-of-two capacity, yielding a
buffer with zero-initialised storage, both cursors zero,
`read_available = 0` and `write_available = capacity`. -/
theorem ring_buffer_create_spec (cap : Nat) (hlt : cap < SIZE_MOD) :
    ((¬ ∃ k, cap = 2 ^ k) → ring_buffer_create cap = none) ∧
    (∀ k, cap = 2 ^ k →
      ∃ rb, ring_buffer_create cap = some rb ∧
        rb.buffer = (fun _ => 0) ∧ rb.write_index = 0 ∧
        rb.read_index = 0 ∧ rb.capacity = cap ∧
        ring_buffer_read_available rb = 0 ∧
        ring_buffer_write_available rb = cap) := by
  constructor
  · intro hnp
    have hfalse : is_power_of_2 cap = false := by
      cases h : is_power_of_2 cap
      · rfl
      · exact absurd ((is_power_of_2_iff cap).mp h) hnp
    rw [ring_buffer_create, hfalse]
    simp
  · intro k hk
    have hp : is_power_of_2 cap = true := (is_power_of_2_iff cap).mpr ⟨k, hk⟩
    refine ⟨{ buffer := fun _ => 0, capacity := cap, mask := cap - 1,
              write_index := 0, read_index := 0 },
      by rw [ring_buffer_create, hp]; rfl, rfl, rfl, rfl, rfl, ?_, ?_⟩
    · simp [ring_buffer_read_available]
    · have h0 : ring_buffer_read_available
          { buffer := fun _ => (0 : ℝ), capacity := cap, mask := cap - 1,
            write_index := 0, read_index := 0 } = 0 := by
        simp [ring_buffer_read_available]
      rw [ring_buffer_write_available, h0]
      show (cap + SIZE_MOD - 0) % SIZE_MOD = cap
      rw [SIZE_MOD] at *
      omega

/-- Witness for the create specification at the power-of-two capacity 8
(success case) — the failure case of the same theorem is exercised at
capacity 8 vacuously and the success case concretely. -/
theorem ring_buffer_create_spec_witness :
    ∃ rb, ring_buffer_create 8 = some rb ∧
      rb.buffer = (fun _ => 0) ∧ rb.write_index = 0 ∧
      rb.read_index = 0 ∧ rb.capacity = 8 ∧
      ring_buffer_read_available rb = 0 ∧
      ring_buffer_write_available rb = 8 :=
  (ring_buffer_create_spec 8 (by decide)).2 3 (by norm_num)

/-! ## FIFO refinement: the ring buffer against a naive bounded queue -/

/-- Abstraction function: the logical queue content of a ring buffer state —
the pending samples between the read and the write cursor, oldest first,
each fetched from its physical slot `counter mod capacity`. -/
def rbQueue (rb : ring_buffer_t) : List ℝ :=
  (List.range (ring_buffer_read_available rb)).map
    (fun i => rb.buffer ((rb.read_index + i) % rb.capacity))

/-- Modelled from the spec: a naive unbounded FIFO queue restricted to
`capacity` elements, the reference model the spec's FIFO/no-loss property
compares the ring buffer against. -/
structure fifo_queue where
  capacity : Nat
  q : List ℝ

/-- Naive queue write: append `min(count, capacity - size)` samples. -/
def fifo_write (s : fifo_queue) (data : List ℝ) (count : Nat) :
    Nat × fifo_queue :=
  let t := min count (s.capacity - s.q.length)
  (t, { s with q := s.q ++ data.take t })

/-- Naive queue read: remove and return the first `min(count, size)`
samples. -/
def fifo_read (s : fifo_queue) (count : Nat) : List ℝ × fifo_queue :=
  let t := min count s.q.length
  (s.q.take t, { s with q := s.q.drop t })

/-- Run a call sequence on the ring buffer, collecting the concatenation of
all samples returned by the reads. -/
def rbRunReads : ring_buffer_t → List RBOp → List ℝ × ring_buffer_t
  | rb, [] => ([], rb)
  | rb, RBOp.write data count :: rest =>
      rbRunReads (ring_buffer_write rb data count).2 rest
  | rb, RBOp.read count :: rest =>
      let p := ring_buffer_read rb count
      let rec_ := rbRunReads p.2 rest
      (p.1 ++ rec_.1, rec_.2)
  | rb, RBOp.reset :: rest => rbRunReads (ring_buffer_reset rb) rest

/-- Run the same call sequence on the naive FIFO queue, collecting the
concatenation of all samples returned by the reads (`reset` empties it). -/
def fifoRunReads : fifo_queue → List RBOp → List ℝ × fifo_queue
  | s, [] => ([], s)
  | s, RBOp.write data count :: rest =>
      fifoRunReads (fifo_write s data count).2 rest
  | s, RBOp.read count :: rest =>
      let p := fifo_read s count
      let rec_ := fifoRunReads p.2 rest
      (p.1 ++ rec_.1, rec_.2)
  | s, RBOp.reset :: rest => fifoRunReads { s with q := [] } rest

/-- The concatenation of all samples passed to the writes of a call
sequence. -/
def writesConcat : List RBOp → List ℝ
  | [] => []
  | RBOp.write data count :: rest => data.take count ++ writesConcat rest
  | RBOp.read _ :: rest => writesConcat rest
  | RBOp.reset :: rest => writesConcat rest

/-- The side condition of the FIFO claim, checked along the run: the call
sequence contains only writes and reads, and each write's requested count
never exceeds `write_available` at call time (and the caller's data array
really holds `count` samples). -/
def seqOK (rb : ring_buffer_t) : List RBOp → Bool
  | [] => true
  | RBOp.write data count :: rest =>
      decide (count ≤ data.length) &&
        decide (count ≤ ring_buffer_write_available rb) &&
        seqOK (ring_buffer_write rb data count).2 rest
  | RBOp.read count :: rest => seqOK (ring_buffer_read rb count).2 rest
  | RBOp.reset :: _ => false

lemma rbQueue_length (rb : ring_buffer_t) :
    (rbQueue rb).length = ring_buffer_read_available rb := by
  simp [rbQueue]

lemma drop_range (n m : Nat) :
    (List.range n).drop m = (List.range (n - m)).map (fun i => m + i) := by
  apply List.ext_getElem
  · simp
  · intro i h1 h2
    simp only [List.getElem_drop, List.getElem_range, List.getElem_map]

lemma take_eq_range_map (l : List ℝ) (n : Nat) (hn : n ≤ l.length) :
    l.take n = (List.range n).map (fun j => l.getD j 0) := by
  apply List.ext_getElem
  · simp; omega
  · intro i h1 h2
    simp only [List.getElem_map, List.getElem_range]
    rw [List.getElem_take]
    rw [List.getD_eq_getElem?_getD, List.getElem?_eq_getElem (by simp at h1 ⊢; omega)]
    rfl

lemma getD_take (l : List ℝ) (n i : Nat) (h : i < n) :
    (l.take n).getD i 0 = l.getD i 0 := by
  rw [List.getD_eq_getElem?_getD, List.getD_eq_getElem?_getD,
    List.getElem?_take, if_pos h]

lemma getD_drop (l : List ℝ) (n i : Nat) :
    (l.drop n).getD i 0 = l.getD (n + i) 0 := by
  rw [List.getD_eq_getElem?_getD, List.getD_eq_getElem?_getD,
    List.getElem?_drop]

lemma and_mask_eq_mod {rb : ring_buffer_t} (h : rb_inv rb) (x : Nat) :
    x &&& rb.mask = x % rb.capacity := by
  obtain ⟨k, -, hk⟩ := h.pow
  rw [h.mask_eq]
  exact mask_and_eq_mod k hk x

/-- The physical write slot sits exactly `read_available` slots past the
physical read slot, cyclically. -/
lemma wpos_eq {rb : ring_buffer_t} (h : rb_inv rb) :
    rb.write_index % rb.capacity =
      (rb.read_index + ring_buffer_read_available rb) % rb.capacity := by
  obtain ⟨m, hm⟩ := h.cap_dvd
  have hr := h.r_lt
  have key : rb.write_index + SIZE_MOD =
      SIZE_MOD * ((rb.write_index + SIZE_MOD - rb.read_index) / SIZE_MOD) +
        (rb.read_index + ring_buffer_read_available rb) := by
    simp only [ring_buffer_read_available, SIZE_MOD] at *
    omega
  have h1 : rb.write_index % rb.capacity =
      (rb.write_index + SIZE_MOD) % rb.capacity := by
    conv_rhs => rw [hm]
    rw [Nat.add_mul_mod_self_left]
  rw [h1, key, hm, Nat.mul_assoc, Nat.mul_add_mod]

lemma mod_cancel_lt (cap r : Nat) {a b : Nat} (ha : a < cap)
    (hb : b < cap) (h : (r + a) % cap = (r + b) % cap) : a = b := by
  have h2 : a % cap = b % cap := Nat.ModEq.add_left_cancel' r h
  rw [Nat.mod_eq_of_lt ha, Nat.mod_eq_of_lt hb] at h2
  exact h2

/-- The storage produced by the non-trivial path of `ring_buffer_write`
when the amount actually written is `count` (its two-chunk copy, verbatim). -/
def write_buf (rb : ring_buffer_t) (data : List ℝ) (count : Nat) :
    Nat → ℝ :=
  let write_pos := rb.write_index &&& rb.mask
  let chunk1₀ := rb.capacity - write_pos
  let chunk1 := if chunk1₀ > count then count else chunk1₀
  let buf1 := memcpy_in rb.buffer write_pos (data.take chunk1)
  if count > chunk1 then
    memcpy_in buf1 0 ((data.drop chunk1).take (count - chunk1))
  else buf1

/-- On a positive in-capacity request, `ring_buffer_write` writes `count`
samples into `write_buf` storage and advances the write cursor. -/
lemma ring_buffer_write_eq (rb : ring_buffer_t) (data : List ℝ)
    (count : Nat) (hc : ¬ count = 0)
    (hwa : count ≤ ring_buffer_write_available rb) :
    ring_buffer_write rb data count =
      (count,
       { rb with buffer := write_buf rb data count,
                 write_index := (rb.write_index + count) % SIZE_MOD }) := by
  have hite : (if count < ring_buffer_write_available rb then count
      else ring_buffer_write_available rb) = count := by split <;> omega
  rw [ring_buffer_write]
  simp only [hite, write_buf]
  rw [if_neg hc]

/-- Pointwise description of `write_buf`: the slots `wpos + j (mod cap)`
for `j < count` receive `data[j]`, every other slot keeps its sample. -/
lemma write_buf_at {rb : ring_buffer_t} (h : rb_inv rb) (data : List ℝ)
    (count : Nat) (hlen : count ≤ data.length)
    (hcnt : count ≤ rb.capacity) :
    (∀ j, j < count →
      write_buf rb data count
          ((rb.write_index % rb.capacity + j) % rb.capacity) =
        data.getD j 0) ∧
    (∀ p, p < rb.capacity →
      (∀ j, j < count →
        p ≠ (rb.write_index % rb.capacity + j) % rb.capacity) →
      write_buf rb data count p = rb.buffer p) := by
  have hcap_pos := h.cap_pos
  have hmask := and_mask_eq_mod h rb.write_index
  have hwpos_lt : rb.write_index % rb.capacity < rb.capacity :=
    Nat.mod_lt _ hcap_pos
  set cap := rb.capacity with hcapdef
  set wpos := rb.write_index % cap with hwposdef
  by_cases hwrap : cap - wpos < count
  · -- wrap-around: two copies
    have hc1 : (if cap - wpos > count then count else cap - wpos) =
        cap - wpos := by split <;> omega
    have hlen1 : (data.take (cap - wpos)).length = cap - wpos := by
      simp only [List.length_take]
      omega
    have hlen2 : ((data.drop (cap - wpos)).take (count - (cap - wpos))).length
        = count - (cap - wpos) := by
      simp only [List.length_take, List.length_drop]
      omega
    constructor
    · intro j hj
      simp only [write_buf, hmask, hc1, if_pos hwrap, memcpy_in, hlen1,
        hlen2]
      by_cases hj1 : j < cap - wpos
      · have hp : (wpos + j) % cap = wpos + j := Nat.mod_eq_of_lt (by omega)
        rw [hp]
        rw [if_neg (by omega)]
        rw [if_pos ⟨by omega, by omega⟩]
        rw [show wpos + j - wpos = j by omega]
        exact getD_take data (cap - wpos) j hj1
      · have hp : (wpos + j) % cap = j - (cap - wpos) := by
          rw [show wpos + j = cap + (j - (cap - wpos)) by omega,
            Nat.add_mod_left, Nat.mod_eq_of_lt (by omega)]
        rw [hp]
        rw [if_pos ⟨by omega, by omega⟩]
        rw [show j - (cap - wpos) - 0 = j - (cap - wpos) by omega]
        rw [getD_take _ _ _ (by omega), getD_drop]
        rw [show cap - wpos + (j - (cap - wpos)) = j by omega]
    · intro p hp hnot
      simp only [write_buf, hmask, hc1, if_pos hwrap, memcpy_in, hlen1,
        hlen2]
      rw [if_neg, if_neg]
      · rintro ⟨h1, h2⟩
        exact hnot (p - wpos) (by omega)
          (by rw [show wpos + (p - wpos) = p by omega,
                Nat.mod_eq_of_lt hp])
      · rintro ⟨h1, h2⟩
        exact hnot (cap - wpos + p) (by omega)
          (by rw [show wpos + (cap - wpos + p) = cap + p by omega,
                Nat.add_mod_left, Nat.mod_eq_of_lt hp])
  · -- single contiguous copy
    have hc1 : (if cap - wpos > count then count else cap - wpos) =
        count := by split <;> omega
    have hlen1 : (data.take count).length = count := by
      simp only [List.length_take]
      omega
    constructor
    · intro j hj
      simp only [write_buf, hmask, hc1, if_neg (lt_irrefl count),
        memcpy_in, hlen1]
      have hp : (wpos + j) % cap = wpos + j := Nat.mod_eq_of_lt (by omega)
      rw [hp]
      rw [if_pos ⟨by omega, by omega⟩]
      rw [show wpos + j - wpos = j by omega]
      exact getD_take data count j hj
    · intro p hp hnot
      simp only [write_buf, hmask, hc1, if_neg (lt_irrefl count),
        memcpy_in, hlen1]
      rw [if_neg]
      rintro ⟨h1, h2⟩
      exact hnot (p - wpos) (by omega)
        (by rw [show wpos + (p - wpos) = p by omega,
              Nat.mod_eq_of_lt hp])

/-- Content of `ring_buffer_write` under the claim's side condition:
the first `count` samples of `data` are appended to the logical queue. -/
lemma ring_buffer_write_queue {rb : ring_buffer_t} (h : rb_inv rb)
    (data : List ℝ) (count : Nat) (hlen : count ≤ data.length)
    (hwa : count ≤ ring_buffer_write_available rb) :
    (ring_buffer_write rb data count).1 = count ∧
    rbQueue (ring_buffer_write rb data count).2 =
      rbQueue rb ++ data.take count := by
  have hwa_eq := write_available_eq h
  have hra_le := h.ra_le
  have hcap_pos := h.cap_pos
  rcases Nat.eq_zero_or_pos count with hc0 | hcpos
  · subst hc0
    have hzero : ring_buffer_write rb data 0 = (0, rb) := by
      rw [ring_buffer_write]
      simp
    rw [hzero]
    simp
  · have hcnt : count ≤ rb.capacity - ring_buffer_read_available rb := by
      omega
    rw [ring_buffer_write_eq rb data count (by omega) hwa]
    refine ⟨rfl, ?_⟩
    have hra' := read_available_after_write h count
      (write_buf rb data count) hcnt
    simp only [rbQueue]
    rw [hra', List.range_add, List.map_append, List.map_map]
    obtain ⟨hW, hK⟩ := write_buf_at h data count hlen (by omega)
    have hwq := wpos_eq h
    congr 1
    · apply List.map_congr_left
      intro i hi
      simp only [List.mem_range] at hi
      apply hK
      · exact Nat.mod_lt _ hcap_pos
      · intro j hj heq
        have h1 : (rb.write_index % rb.capacity + j) % rb.capacity =
            (rb.read_index + (ring_buffer_read_available rb + j)) %
              rb.capacity := by
          rw [hwq, Nat.mod_add_mod, Nat.add_assoc]
        rw [h1] at heq
        have h2 := mod_cancel_lt rb.capacity rb.read_index
          (by omega) (by omega) heq
        omega
    · rw [take_eq_range_map data count hlen]
      apply List.map_congr_left
      intro j hj
      simp only [List.mem_range] at hj
      simp only [Function.comp]
      have h1 : (rb.read_index + (ring_buffer_read_available rb + j)) %
          rb.capacity =
          (rb.write_index % rb.capacity + j) % rb.capacity := by
        rw [hwq, Nat.mod_add_mod, Nat.add_assoc]
      rw [h1]
      exact hW j hj

/-- Content of `ring_buffer_read`: it returns the first
`min count read_available` samples of the logical queue and removes them
from it. -/
lemma ring_buffer_read_queue {rb : ring_buffer_t} (h : rb_inv rb)
    (count : Nat) :
    (ring_buffer_read rb count).1 =
      (rbQueue rb).take (min count (ring_buffer_read_available rb)) ∧
    rbQueue (ring_buffer_read rb count).2 =
      (rbQueue rb).drop (min count (ring_buffer_read_available rb)) := by
  have hcap_pos := h.cap_pos
  have hra_le := h.ra_le
  set t := min count (ring_buffer_read_available rb) with htdef
  have htle : t ≤ ring_buffer_read_available rb := by omega
  have hminite : (if count < ring_buffer_read_available rb then count
      else ring_buffer_read_available rb) = t := by
    rw [htdef]; split <;> omega
  rcases Nat.eq_zero_or_pos t with ht0 | htpos
  · have hzero : ring_buffer_read rb count = ([], rb) := by
      rw [ring_buffer_read]
      simp only [hminite]
      rw [if_pos ht0]
    rw [hzero, ht0]
    simp
  · have hrpos_lt : rb.read_index % rb.capacity < rb.capacity :=
      Nat.mod_lt _ hcap_pos
    have hc1ite : (if rb.capacity - rb.read_index % rb.capacity > t then t
        else rb.capacity - rb.read_index % rb.capacity) =
          min t (rb.capacity - rb.read_index % rb.capacity) := by
      split <;> omega
    have hread : ring_buffer_read rb count =
        (memcpy_out rb.buffer (rb.read_index % rb.capacity)
            (min t (rb.capacity - rb.read_index % rb.capacity)) ++
          (if t > min t (rb.capacity - rb.read_index % rb.capacity) then
              memcpy_out rb.buffer 0
                (t - min t (rb.capacity - rb.read_index % rb.capacity))
            else []),
         { rb with read_index := (rb.read_index + t) % SIZE_MOD }) := by
      rw [ring_buffer_read]
      simp only [hminite]
      rw [if_neg (by omega)]
      simp only [and_mask_eq_mod h, hc1ite]
    set c1 := min t (rb.capacity - rb.read_index % rb.capacity) with hc1def
    have hc1t : c1 ≤ t := by omega
    have hc1cap : c1 ≤ rb.capacity - rb.read_index % rb.capacity := by omega
    constructor
    · rw [hread]
      show memcpy_out rb.buffer (rb.read_index % rb.capacity) c1 ++
          (if t > c1 then memcpy_out rb.buffer 0 (t - c1) else []) =
        (rbQueue rb).take t
      rw [rbQueue, ← List.map_take, List.take_range,
        show min t (ring_buffer_read_available rb) = t from by omega]
      conv_rhs => rw [show t = c1 + (t - c1) from by omega, List.range_add]
      rw [List.map_append, List.map_map]
      congr 1
      · rw [memcpy_out]
        apply List.map_congr_left
        intro i hi
        simp only [List.mem_range] at hi
        rw [← Nat.mod_add_mod,
          Nat.mod_eq_of_lt (show rb.read_index % rb.capacity + i <
            rb.capacity from by omega)]
      · by_cases hwrap : t > c1
        · rw [if_pos hwrap, memcpy_out]
          apply List.map_congr_left
          intro i hi
          simp only [List.mem_range] at hi
          have hc1e : c1 = rb.capacity - rb.read_index % rb.capacity := by
            omega
          simp only [Function.comp]
          rw [← Nat.mod_add_mod,
            show rb.read_index % rb.capacity + (c1 + i) =
              rb.capacity + i from by omega,
            Nat.add_mod_left,
            Nat.mod_eq_of_lt (show i < rb.capacity from by omega),
            Nat.zero_add]
        · rw [if_neg hwrap,
            show t - c1 = 0 from by omega]
          simp
    · rw [hread]
      show rbQueue { rb with read_index := (rb.read_index + t) % SIZE_MOD } =
        (rbQueue rb).drop t
      have hra' := read_available_after_read h t htle
      simp only [rbQueue]
      rw [hra', ← List.map_drop, drop_range, List.map_map]
      apply List.map_congr_left
      intro i hi
      simp only [List.mem_range, Function.comp] at hi ⊢
      rw [← Nat.mod_add_mod, Nat.mod_mod_of_dvd _ h.cap_dvd,
        Nat.mod_add_mod, Nat.add_assoc]

/-- Forward simulation: under the claim's side conditions, the ring buffer
and the naive bounded FIFO queue produce identical read outputs, and at
every point the samples already read followed by the pending queue are
exactly the samples written so far. -/
lemma run_refines (ops : List RBOp) :
    ∀ (rb : ring_buffer_t) (s : fifo_queue), rb_inv rb →
      s.capacity = rb.capacity → s.q = rbQueue rb →
      seqOK rb ops = true →
      (rbRunReads rb ops).1 = (fifoRunReads s ops).1 ∧
      (rbRunReads rb ops).1 ++ rbQueue (rbRunReads rb ops).2 =
        rbQueue rb ++ writesConcat ops := by
  induction ops with
  | nil =>
      intro rb s hinv hcap hq hok
      simp [rbRunReads, fifoRunReads, writesConcat]
  | cons op rest ih =>
      intro rb s hinv hcap hq hok
      cases op with
      | write data count =>
          simp only [seqOK, Bool.and_eq_true, decide_eq_true_eq] at hok
          obtain ⟨⟨hlen, hwa⟩, hrest⟩ := hok
          obtain ⟨hw1, hw2⟩ := ring_buffer_write_queue hinv data count hlen
            hwa
          obtain ⟨hinv', hcap', -⟩ := ring_buffer_write_inv hinv data count
          have hfq : (fifo_write s data count).2.q =
              s.q ++ data.take count := by
            rw [fifo_write]
            have hm : min count (s.capacity - s.q.length) = count := by
              rw [hcap, hq, rbQueue_length]
              have := write_available_eq hinv
              omega
            simp only [hm]
          obtain ⟨ih1, ih2⟩ := ih (ring_buffer_write rb data count).2
            (fifo_write s data count).2 hinv'
            (by rw [fifo_write]; simp only []; rw [hcap, hcap'])
            (by rw [hfq, hw2, hq]) hrest
          refine ⟨?_, ?_⟩
          · simp only [rbRunReads, fifoRunReads]
            exact ih1
          · simp only [rbRunReads, writesConcat]
            rw [ih2, hw2, List.append_assoc]
      | read count =>
          simp only [seqOK] at hok
          obtain ⟨hr1, hr2⟩ := ring_buffer_read_queue hinv count
          obtain ⟨hinv', hcap', -⟩ := ring_buffer_read_inv hinv count
          have ht : min count s.q.length =
              min count (ring_buffer_read_available rb) := by
            rw [hq, rbQueue_length]
          have hfout : (fifo_read s count).1 =
              (ring_buffer_read rb count).1 := by
            rw [fifo_read]
            simp only []
            rw [hr1, hq, rbQueue_length]
          have hfq' : (fifo_read s count).2.q =
              rbQueue (ring_buffer_read rb count).2 := by
            rw [fifo_read]
            simp only []
            rw [hr2, hq, rbQueue_length]
          obtain ⟨ih1, ih2⟩ := ih (ring_buffer_read rb count).2
            (fifo_read s count).2 hinv'
            (by rw [fifo_read]; simp only []; rw [hcap, hcap']) hfq' hok
          refine ⟨?_, ?_⟩
          · simp only [rbRunReads, fifoRunReads]
            rw [ih1, hfout]
          · simp only [rbRunReads, writesConcat]
            rw [List.append_assoc, ih2, hr1, hr2, ← List.append_assoc,
              List.take_append_drop]
      | reset => simp [seqOK] at hok

/-- Claim C1. FIFO/no-loss refinement.  For every ring buffer obtained from a
successful create and used sequentially by a sequence of writes interleaved
with reads in which each write's requested count does not exceed
`write_available` at call time, the read outputs coincide with those of a
naive unbounded FIFO queue restricted to the same capacity started empty,
and the concatenation of all samples returned by the successive reads,
followed by the samples still pending in the buffer, equals the
concatenation of all samples passed to the writes, in order — no loss, no
duplication, no reordering (when the sequence drains the buffer the two
concatenations are equal outright). -/
theorem ring_buffer_fifo_refinement (cap : Nat) (hlt : cap < SIZE_MOD)
    (rb0 : ring_buffer_t) (hcreate : ring_buffer_create cap = some rb0)
    (ops : List RBOp) (hok : seqOK rb0 ops = true) :
    (rbRunReads rb0 ops).1 = (fifoRunReads ⟨cap, []⟩ ops).1 ∧
    (rbRunReads rb0 ops).1 ++ rbQueue (rbRunReads rb0 ops).2 =
      writesConcat ops := by
  obtain ⟨hinv, hcap, hra0⟩ := ring_buffer_create_inv hlt hcreate
  have hq0 : rbQueue rb0 = [] := by rw [rbQueue, hra0]; simp
  obtain ⟨h1, h2⟩ := run_refines ops rb0 ⟨cap, []⟩ hinv hcap.symm
    (by rw [hq0]) hok
  exact ⟨h1, by rw [h2, hq0]; simp⟩

/-- Witness for the FIFO refinement: capacity 4 with a wrap-around
sequence — write 3, read 2, write 3 (wrapping), read 4 (draining). -/
theorem ring_buffer_fifo_refinement_witness :
    (rbRunReads ⟨fun _ => 0, 4, 3, 0, 0⟩
        [RBOp.write [1, 2, 3] 3, RBOp.read 2,
         RBOp.write [4, 5, 6] 3, RBOp.read 4]).1 =
      (fifoRunReads ⟨4, []⟩
        [RBOp.write [1, 2, 3] 3, RBOp.read 2,
         RBOp.write [4, 5, 6] 3, RBOp.read 4]).1 ∧
    (rbRunReads ⟨fun _ => 0, 4, 3, 0, 0⟩
        [RBOp.write [1, 2, 3] 3, RBOp.read 2,
         RBOp.write [4, 5, 6] 3, RBOp.read 4]).1 ++
        rbQueue (rbRunReads ⟨fun _ => 0, 4, 3, 0, 0⟩
        [RBOp.write [1, 2, 3] 3, RBOp.read 2,
         RBOp.write [4, 5, 6] 3, RBOp.read 4]).2 =
      writesConcat
        [RBOp.write [1, 2, 3] 3, RBOp.read 2,
         RBOp.write [4, 5, 6] 3, RBOp.read 4] :=
  ring_buffer_fifo_refinement 4 (by decide) ⟨fun _ => 0, 4, 3, 0, 0⟩ rfl
    [RBOp.write [1, 2, 3] 3, RBOp.read 2,
     RBOp.write [4, 5, 6] 3, RBOp.read 4] (by decide)

/-! ## Effects (`src/effects.c`), samples and `float` arithmetic modelled
over `ℝ` -/

/-- `gain_effect_t` from `effects.h`. -/
structure gain_effect_t where
  gain : ℝ

/-- `gain_init`: linear gain `10^(dB/20)` (written into the struct passed
by pointer). -/
noncomputable def gain_init (effect : gain_effect_t) (gain_db : ℝ) :
    gain_effect_t :=
  { effect with gain := (10 : ℝ) ^ (gain_db / 20) }

/-- `gain_process`: multiply every sample by the linear gain (the gain
state is only read, matching the C function). -/
def gain_process (effect : gain_effect_t) (buffer : List ℝ) : List ℝ :=
  buffer.map (fun x => x * effect.gain)

/-- `biquad_t` from `effects.h`: five coefficients and four history
scalars. -/
structure biquad_t where
  b0 : ℝ
  b1 : ℝ
  b2 : ℝ
  a1 : ℝ
  a2 : ℝ
  x1 : ℝ
  x2 : ℝ
  y1 : ℝ
  y2 : ℝ

/-- `biquad_reset`: zero the four history scalars. -/
def biquad_reset (filter : biquad_t) : biquad_t :=
  { filter with x1 := 0, x2 := 0, y1 := 0, y2 := 0 }

/-- `biquad_lowpass_init` (`effects.c` lines 27-41), cookbook lowpass
coefficients followed by the `biquad_reset` call the source performs. -/
noncomputable def biquad_lowpass_init (filter : biquad_t)
    (sample_rate cutoff_freq q : ℝ) : biquad_t :=
  let w0 := 2 * Real.pi * cutoff_freq / sample_rate
  let cos_w0 := Real.cos w0
  let sin_w0 := Real.sin w0
  let alpha := sin_w0 / (2 * q)
  let a0 := 1 + alpha
  biquad_reset
    { filter with
      b0 := ((1 - cos_w0) / 2) / a0
      b1 := (1 - cos_w0) / a0
      b2 := ((1 - cos_w0) / 2) / a0
      a1 := (-2 * cos_w0) / a0
      a2 := (1 - alpha) / a0 }

/-- `biquad_highpass_init` (`effects.c` lines 43-57). -/
noncomputable def biquad_highpass_init (filter : biquad_t)
    (sample_rate cutoff_freq q : ℝ) : biquad_t :=
  let w0 := 2 * Real.pi * cutoff_freq / sample_rate
  let cos_w0 := Real.cos w0
  let sin_w0 := Real.sin w0
  let alpha := sin_w0 / (2 * q)
  let a0 := 1 + alpha
  biquad_reset
    { filter with
      b0 := ((1 + cos_w0) / 2) / a0
      b1 := -(1 + cos_w0) / a0
      b2 := ((1 + cos_w0) / 2) / a0
      a1 := (-2 * cos_w0) / a0
      a2 := (1 - alpha) / a0 }

/-- `biquad_process_sample`: Direct-Form-I output and history shift. -/
def biquad_process_sample (filter : biquad_t) (input : ℝ) :
    ℝ × biquad_t :=
  let output := filter.b0 * input + filter.b1 * filter.x1 +
    filter.b2 * filter.x2 - filter.a1 * filter.y1 - filter.a2 * filter.y2
  (output,
   { filter with x2 := filter.x1, x1 := input,
                 y2 := filter.y1, y1 := output })

/-- `biquad_process`: apply the per-sample transfer to every sample in
order, threading the filter state. -/
def biquad_process : biquad_t → List ℝ → List ℝ × biquad_t
  | filter, [] => ([], filter)
  | filter, x :: xs =>
      let p := biquad_process_sample filter x
      let rest := biquad_process p.2 xs
      (p.1 :: rest.1, rest.2)

/-- `compressor_t` from `effects.h`. -/
structure compressor_t where
  threshold : ℝ
  ratio : ℝ
  attack_coef : ℝ
  release_coef : ℝ
  envelope : ℝ

/-- `compressor_init` (`effects.c` lines 89-96). -/
noncomputable def compressor_init (comp : compressor_t)
    (threshold_db ratio attack_ms release_ms sample_rate : ℝ) :
    compressor_t :=
  { comp with
    threshold := (10 : ℝ) ^ (threshold_db / 20)
    ratio := ratio
    attack_coef := Real.exp (-1 / (attack_ms * 0.001 * sample_rate))
    release_coef := Real.exp (-1 / (release_ms * 0.001 * sample_rate))
    envelope := 0 }

/-- The gain-reduction computation of `compressor_process`
(`effects.c` lines 111-116), evaluated on the already-updated envelope. -/
noncomputable def compressor_gain (comp : compressor_t) : ℝ :=
  if comp.envelope > comp.threshold then
    (comp.envelope / comp.threshold) ^ (1 / comp.ratio - 1)
  else 1

/-- One iteration of the `compressor_process` loop: envelope follower
update on `|x|`, then gain applied to the sample. -/
noncomputable def compressor_process_sample (comp : compressor_t)
    (x : ℝ) : ℝ × compressor_t :=
  let input := |x|
  let comp' :=
    if input > comp.envelope then
      { comp with envelope := comp.attack_coef * comp.envelope +
          (1 - comp.attack_coef) * input }
    else
      { comp with envelope := comp.release_coef * comp.envelope +
          (1 - comp.release_coef) * input }
  (x * compressor_gain comp', comp')

/-- `compressor_process` (`effects.c` lines 98-120). -/
noncomputable def compressor_process :
    compressor_t → List ℝ → List ℝ × compressor_t
  | comp, [] => ([], comp)
  | comp, x :: xs =>
      let p := compressor_process_sample comp x
      let rest := compressor_process p.2 xs
      (p.1 :: rest.1, rest.2)

/-- `effect_chain_t` from `effects.h`. -/
structure effect_chain_t where
  gain_enabled : Bool
  filter_enabled : Bool
  compressor_enabled : Bool
  gain : gain_effect_t
  filter : biquad_t
  compressor : compressor_t

/-- `effect_chain_init` (`effects.c` lines 126-136): default parameters and
all stages disabled. -/
noncomputable def effect_chain_init (chain : effect_chain_t)
    (sample_rate : ℝ) : effect_chain_t :=
  { chain with
    gain := gain_init chain.gain 0
    filter := biquad_lowpass_init chain.filter sample_rate 2000 0.707
    compressor :=
      compressor_init chain.compressor (-20) 4 10 100 sample_rate
    gain_enabled := false
    filter_enabled := false
    compressor_enabled := false }

/-- `effect_chain_process` (`effects.c` lines 138-150): apply the enabled
stages in the fixed order gain, filter, compressor. -/
noncomputable def effect_chain_process (chain : effect_chain_t)
    (buffer : List ℝ) : List ℝ × effect_chain_t :=
  let b1 := if chain.gain_enabled then gain_process chain.gain buffer
            else buffer
  let p2 := if chain.filter_enabled then biquad_process chain.filter b1
            else (b1, chain.filter)
  let p3 := if chain.compressor_enabled then
              compressor_process chain.compressor p2.1
            else (p2.1, chain.compressor)
  (p3.1, { chain with filter := p2.2, compressor := p3.2 })

/-- Claim C5, counterexample. The claim that reconfiguration leaves the
recursive state untouched is false at a concrete input: a biquad with
history `x1 = 1` loses it when `biquad_lowpass_init` is called on it
(the source init ends with `biquad_reset`), and a compressor with
envelope `1` has it zeroed by `compressor_init`. -/
theorem reconfigure_keeps_state_counterexample :
    (biquad_lowpass_init ⟨0, 0, 0, 0, 0, 1, 1, 1, 1⟩ 48000 1000 1).x1 ≠
      (⟨0, 0, 0, 0, 0, 1, 1, 1, 1⟩ : biquad_t).x1 ∧
    (compressor_init ⟨0, 0, 0, 0, 1⟩ (-20) 4 10 100 48000).envelope ≠
      (⟨0, 0, 0, 0, 1⟩ : compressor_t).envelope := by
  constructor
  · simp only [biquad_lowpass_init, biquad_reset]
    norm_num
  · simp only [compressor_init]
    norm_num

/-- Claim C5, amended. Reconfiguring a `biquad_t` through either constructor
or a `compressor_t` through `compressor_init` performs an implicit state
reset: the four history scalars, respectively the envelope, are set to zero
regardless of their previous values. -/
theorem reconfigure_resets_state (f : biquad_t) (sr fc q : ℝ)
    (c : compressor_t) (tdb r am rm s2 : ℝ) :
    (biquad_lowpass_init f sr fc q).x1 = 0 ∧
    (biquad_lowpass_init f sr fc q).x2 = 0 ∧
    (biquad_lowpass_init f sr fc q).y1 = 0 ∧
    (biquad_lowpass_init f sr fc q).y2 = 0 ∧
    (biquad_highpass_init f sr fc q).x1 = 0 ∧
    (biquad_highpass_init f sr fc q).x2 = 0 ∧
    (biquad_highpass_init f sr fc q).y1 = 0 ∧
    (biquad_highpass_init f sr fc q).y2 = 0 ∧
    (compressor_init c tdb r am rm s2).envelope = 0 := by
  refine ⟨?_, ?_, ?_, ?_, ?_, ?_, ?_, ?_, ?_⟩ <;>
    simp [biquad_lowpass_init, biquad_highpass_init, biquad_reset,
      compressor_init]

/-- Modelled from the spec (§4.3): one step of the Direct-Form-I
recurrence `y = b0·x + b1·x1 + b2·x2 − a1·y1 − a2·y2` followed by the
history shift `x2←x1, x1←x, y2←y1, y1←y`, on a bare history 4-tuple. -/
def biquad_spec_step (b0 b1 b2 a1 a2 : ℝ) (st : ℝ × ℝ × ℝ × ℝ) (x : ℝ) :
    ℝ × (ℝ × ℝ × ℝ × ℝ) :=
  let y := b0 * x + b1 * st.1 + b2 * st.2.1 - a1 * st.2.2.1 -
    a2 * st.2.2.2
  (y, (x, st.1, y, st.2.2.1))

/-- Modelled from the spec (§4.3): the recurrence applied to every sample
in order, carrying the history. -/
def biquad_spec_run (b0 b1 b2 a1 a2 : ℝ) :
    ℝ × ℝ × ℝ × ℝ → List ℝ → List ℝ × (ℝ × ℝ × ℝ × ℝ)
  | st, [] => ([], st)
  | st, x :: xs =>
      let p := biquad_spec_step b0 b1 b2 a1 a2 st x
      let rest := biquad_spec_run b0 b1 b2 a1 a2 p.2 xs
      (p.1 :: rest.1, rest.2)

lemma biquad_process_spec_agree (buffer : List ℝ) :
    ∀ filter : biquad_t,
      (biquad_process filter buffer).1 =
        (biquad_spec_run filter.b0 filter.b1 filter.b2 filter.a1 filter.a2
          (filter.x1, filter.x2, filter.y1, filter.y2) buffer).1 ∧
      ((biquad_process filter buffer).2.x1,
       (biquad_process filter buffer).2.x2,
       (biquad_process filter buffer).2.y1,
       (biquad_process filter buffer).2.y2) =
        (biquad_spec_run filter.b0 filter.b1 filter.b2 filter.a1 filter.a2
          (filter.x1, filter.x2, filter.y1, filter.y2) buffer).2 ∧
      (biquad_process filter buffer).2.b0 = filter.b0 ∧
      (biquad_process filter buffer).2.b1 = filter.b1 ∧
      (biquad_process filter buffer).2.b2 = filter.b2 ∧
      (biquad_process filter buffer).2.a1 = filter.a1 ∧
      (biquad_process filter buffer).2.a2 = filter.a2 := by
  induction buffer with
  | nil => intro filter; exact ⟨rfl, rfl, rfl, rfl, rfl, rfl, rfl⟩
  | cons x xs ih =>
      intro filter
      obtain ⟨ih1, ih2, ihb0, ihb1, ihb2, iha1, iha2⟩ :=
        ih (biquad_process_sample filter x).2
      refine ⟨?_, ?_, ihb0, ihb1, ihb2, iha1, iha2⟩
      · show (biquad_process_sample filter x).1 ::
            (biquad_process (biquad_process_sample filter x).2 xs).1 = _
        rw [ih1]
        rfl
      · show ((biquad_process (biquad_process_sample filter x).2 xs).2.x1,
              (biquad_process (biquad_process_sample filter x).2 xs).2.x2,
              (biquad_process (biquad_process_sample filter x).2 xs).2.y1,
              (biquad_process (biquad_process_sample filter x).2 xs).2.y2)
            = _
        rw [ih2]
        rfl

lemma biquad_process_append (bs : List ℝ) :
    ∀ (filter : biquad_t) (cs : List ℝ),
      biquad_process filter (bs ++ cs) =
        ((biquad_process filter bs).1 ++
           (biquad_process (biquad_process filter bs).2 cs).1,
         (biquad_process (biquad_process filter bs).2 cs).2) := by
  induction bs with
  | nil => intro filter cs; simp [biquad_process]
  | cons x xs ih =>
      intro filter cs
      show (((biquad_process_sample filter x).1 ::
          (biquad_process (biquad_process_sample filter x).2 (xs ++ cs)).1),
          (biquad_process (biquad_process_sample filter x).2 (xs ++ cs)).2)
        = _
      rw [ih]
      rfl

/-- Claim C7. `biquad_process` processes each sample in order by the
Direct-Form-I recurrence `y = b0·x + b1·x1 + b2·x2 − a1·y1 − a2·y2`
followed by the history shift `x2←x1, x1←x, y2←y1, y1←y` (agreement with
the recurrence as transcribed from the spec), the coefficients are
untouched, and the four history scalars are carried continuously across
successive calls: processing `bs ++ cs` is processing `bs` and then `cs`
from the state `bs` left behind. -/
theorem biquad_process_direct_form_one (filter : biquad_t)
    (buffer bs cs : List ℝ) :
    (biquad_process filter buffer).1 =
      (biquad_spec_run filter.b0 filter.b1 filter.b2 filter.a1 filter.a2
        (filter.x1, filter.x2, filter.y1, filter.y2) buffer).1 ∧
    ((biquad_process filter buffer).2.x1,
     (biquad_process filter buffer).2.x2,
     (biquad_process filter buffer).2.y1,
     (biquad_process filter buffer).2.y2) =
      (biquad_spec_run filter.b0 filter.b1 filter.b2 filter.a1 filter.a2
        (filter.x1, filter.x2, filter.y1, filter.y2) buffer).2 ∧
    (biquad_process filter buffer).2.b0 = filter.b0 ∧
    (biquad_process filter buffer).2.b1 = filter.b1 ∧
    (biquad_process filter buffer).2.b2 = filter.b2 ∧
    (biquad_process filter buffer).2.a1 = filter.a1 ∧
    (biquad_process filter buffer).2.a2 = filter.a2 ∧
    biquad_process filter (bs ++ cs) =
      ((biquad_process filter bs).1 ++
         (biquad_process (biquad_process filter bs).2 cs).1,
       (biquad_process (biquad_process filter bs).2 cs).2) := by
  obtain ⟨h1, h2, h3, h4, h5, h6, h7⟩ := biquad_process_spec_agree buffer
    filter
  exact ⟨h1, h2, h3, h4, h5, h6, h7, biquad_process_append bs filter cs⟩

/-- Modelled from the spec (§4.4): one per-sample step — `level = |x|`,
asymmetric one-pole envelope update, gain `(envelope/threshold)^(1/ratio−1)`
above threshold and `1` otherwise, output `x · gain`.  State is the bare
envelope scalar. -/
noncomputable def compressor_spec_step
    (threshold ratio attack_coef release_coef : ℝ) (envelope x : ℝ) :
    ℝ × ℝ :=
  let level := |x|
  let envelope' :=
    if level > envelope then
      attack_coef * envelope + (1 - attack_coef) * level
    else release_coef * envelope + (1 - release_coef) * level
  let gain :=
    if envelope' > threshold then (envelope' / threshold) ^ (1 / ratio - 1)
    else 1
  (x * gain, envelope')

/-- Modelled from the spec (§4.4): the per-sample step applied to every
sample in order, carrying the envelope. -/
noncomputable def compressor_spec_run
    (threshold ratio attack_coef release_coef : ℝ) :
    ℝ → List ℝ → List ℝ × ℝ
  | envelope, [] => ([], envelope)
  | envelope, x :: xs =>
      let p := compressor_spec_step threshold ratio attack_coef
        release_coef envelope x
      let rest := compressor_spec_run threshold ratio attack_coef
        release_coef p.2 xs
      (p.1 :: rest.1, rest.2)

lemma compressor_sample_fields (comp : compressor_t) (x : ℝ) :
    (compressor_process_sample comp x).2.threshold = comp.threshold ∧
    (compressor_process_sample comp x).2.ratio = comp.ratio ∧
    (compressor_process_sample comp x).2.attack_coef = comp.attack_coef ∧
    (compressor_process_sample comp x).2.release_coef =
      comp.release_coef := by
  rw [compressor_process_sample]
  split <;> exact ⟨rfl, rfl, rfl, rfl⟩

lemma compressor_sample_spec_agree (comp : compressor_t) (x : ℝ) :
    (compressor_process_sample comp x).1 =
      (compressor_spec_step comp.threshold comp.ratio comp.attack_coef
        comp.release_coef comp.envelope x).1 ∧
    (compressor_process_sample comp x).2.envelope =
      (compressor_spec_step comp.threshold comp.ratio comp.attack_coef
        comp.release_coef comp.envelope x).2 := by
  rw [compressor_process_sample, compressor_spec_step, compressor_gain]
  split <;> exact ⟨rfl, rfl⟩

lemma compressor_process_spec_agree (buffer : List ℝ) :
    ∀ comp : compressor_t,
      (compressor_process comp buffer).1 =
        (compressor_spec_run comp.threshold comp.ratio comp.attack_coef
          comp.release_coef comp.envelope buffer).1 ∧
      (compressor_process comp buffer).2.envelope =
        (compressor_spec_run comp.threshold comp.ratio comp.attack_coef
          comp.release_coef comp.envelope buffer).2 ∧
      (compressor_process comp buffer).2.threshold = comp.threshold ∧
      (compressor_process comp buffer).2.ratio = comp.ratio ∧
      (compressor_process comp buffer).2.attack_coef = comp.attack_coef ∧
      (compressor_process comp buffer).2.release_coef =
        comp.release_coef := by
  induction buffer with
  | nil => intro comp; exact ⟨rfl, rfl, rfl, rfl, rfl, rfl⟩
  | cons x xs ih =>
      intro comp
      obtain ⟨hs1, hs2⟩ := compressor_sample_spec_agree comp x
      obtain ⟨hf1, hf2, hf3, hf4⟩ := compressor_sample_fields comp x
      obtain ⟨ih1, ih2, ih3, ih4, ih5, ih6⟩ :=
        ih (compressor_process_sample comp x).2
      refine ⟨?_, ?_, ?_, ?_, ?_, ?_⟩
      · show (compressor_process_sample comp x).1 ::
            (compressor_process (compressor_process_sample comp x).2 xs).1
          = _
        rw [ih1, hf1, hf2, hf3, hf4, hs1, hs2]
        rfl
      · show (compressor_process
            (compressor_process_sample comp x).2 xs).2.envelope = _
        rw [ih2, hf1, hf2, hf3, hf4, hs2]
        rfl
      · show (compressor_process
            (compressor_process_sample comp x).2 xs).2.threshold =
          comp.threshold
        rw [ih3, hf1]
      · show (compressor_process
            (compressor_process_sample comp x).2 xs).2.ratio = comp.ratio
        rw [ih4, hf2]
      · show (compressor_process
            (compressor_process_sample comp x).2 xs).2.attack_coef =
          comp.attack_coef
        rw [ih5, hf3]
      · show (compressor_process
            (compressor_process_sample comp x).2 xs).2.release_coef =
          comp.release_coef
        rw [ih6, hf4]

/-- Claim C6. `compressor_process` handles each sample in order exactly as
the spec's formulas state (level, asymmetric envelope follower, threshold
gate, power-law gain, output `x · gain`), and the gain it computes above
threshold is at most 1 whenever `ratio > 1` (the threshold of every
configured compressor being positive, as the second conjunct shows). -/
theorem compressor_process_spec (comp : compressor_t) (buffer : List ℝ)
    (c : compressor_t) (tdb r am rm sr : ℝ) :
    ((compressor_process comp buffer).1 =
        (compressor_spec_run comp.threshold comp.ratio comp.attack_coef
          comp.release_coef comp.envelope buffer).1 ∧
      (compressor_process comp buffer).2.envelope =
        (compressor_spec_run comp.threshold comp.ratio comp.attack_coef
          comp.release_coef comp.envelope buffer).2) ∧
    0 < (compressor_init c tdb r am rm sr).threshold ∧
    (∀ comp' : compressor_t, 1 < comp'.ratio →
      0 < comp'.threshold → comp'.threshold < comp'.envelope →
      compressor_gain comp' ≤ 1) := by
  obtain ⟨h1, h2, -, -, -, -⟩ := compressor_process_spec_agree buffer comp
  refine ⟨⟨h1, h2⟩, ?_, ?_⟩
  · rw [compressor_init]
    exact Real.rpow_pos_of_pos (by norm_num) _
  · intro comp' hratio hthr henv
    rw [compressor_gain, if_pos henv]
    apply Real.rpow_le_one_of_one_le_of_nonpos
    · rw [le_div_iff₀ hthr]
      linarith
    · have h1r : 1 / comp'.ratio < 1 := by
        rw [div_lt_one (by linarith)]
        exact hratio
      linarith

/-- Witness for the compressor specification: a concrete compressor with
threshold 1, ratio 2 and envelope 2 — the hypotheses `1 < ratio`,
`0 < threshold`, `threshold < envelope` hold and the theorem bounds its
gain by 1. -/
theorem compressor_process_spec_witness :
    compressor_gain ⟨1, 2, 0, 0, 2⟩ ≤ 1 :=
  (compressor_process_spec ⟨1, 2, 0, 0, 2⟩ [] ⟨1, 2, 0, 0, 2⟩ 0 2 1 1
      1).2.2 ⟨1, 2, 0, 0, 2⟩ (by norm_num) (by norm_num) (by norm_num)

lemma compressor_sample_env_nonneg (comp : compressor_t) (x : ℝ)
    (h0a : 0 ≤ comp.attack_coef) (h1a : comp.attack_coef ≤ 1)
    (h0r : 0 ≤ comp.release_coef) (h1r : comp.release_coef ≤ 1)
    (henv : 0 ≤ comp.envelope) :
    0 ≤ (compressor_process_sample comp x).2.envelope := by
  have habs := abs_nonneg x
  rw [compressor_process_sample]
  simp only []
  split
  · show 0 ≤ comp.attack_coef * comp.envelope +
      (1 - comp.attack_coef) * |x|
    have h1 : 0 ≤ comp.attack_coef * comp.envelope := mul_nonneg h0a henv
    have h2 : 0 ≤ (1 - comp.attack_coef) * |x| :=
      mul_nonneg (by linarith) habs
    linarith
  · show 0 ≤ comp.release_coef * comp.envelope +
      (1 - comp.release_coef) * |x|
    have h1 : 0 ≤ comp.release_coef * comp.envelope := mul_nonneg h0r henv
    have h2 : 0 ≤ (1 - comp.release_coef) * |x| :=
      mul_nonneg (by linarith) habs
    linarith

lemma compressor_process_env_nonneg (buffer : List ℝ) :
    ∀ comp : compressor_t,
      0 ≤ comp.attack_coef → comp.attack_coef ≤ 1 →
      0 ≤ comp.release_coef → comp.release_coef ≤ 1 →
      0 ≤ comp.envelope →
      0 ≤ (compressor_process comp buffer).2.envelope := by
  induction buffer with
  | nil => intro comp _ _ _ _ henv; exact henv
  | cons x xs ih =>
      intro comp h0a h1a h0r h1r henv
      obtain ⟨-, -, hf3, hf4⟩ := compressor_sample_fields comp x
      have henv' := compressor_sample_env_nonneg comp x h0a h1a h0r h1r
        henv
      show 0 ≤ (compressor_process
        (compressor_process_sample comp x).2 xs).2.envelope
      exact ih _ (hf3 ▸ h0a) (hf3 ▸ h1a) (hf4 ▸ h0r) (hf4 ▸ h1r) henv'

lemma compressor_fold_env_nonneg (blocks : List (List ℝ)) :
    ∀ comp : compressor_t,
      0 ≤ comp.attack_coef → comp.attack_coef ≤ 1 →
      0 ≤ comp.release_coef → comp.release_coef ≤ 1 →
      0 ≤ comp.envelope →
      0 ≤ (blocks.foldl (fun comp b => (compressor_process comp b).2)
          comp).envelope := by
  induction blocks with
  | nil => intro comp _ _ _ _ henv; exact henv
  | cons b bs ih =>
      intro comp h0a h1a h0r h1r henv
      obtain ⟨-, -, -, -, hc3, hc4⟩ := compressor_process_spec_agree b comp
      simp only [List.foldl_cons]
      exact ih _ (hc3 ▸ h0a) (hc3 ▸ h1a) (hc4 ▸ h0r) (hc4 ▸ h1r)
        (compressor_process_env_nonneg b comp h0a h1a h0r h1r henv)

/-- Claim C10. For every compressor configured with `attack_ms > 0`,
`release_ms > 0` and `sample_rate > 0`, both smoothing coefficients lie in
`(0, 1)`, the envelope is 0 immediately after configuration, and it stays
non-negative after processing any sequence of blocks — `envelope ≥ 0` is
preserved by every `compressor_process` call. -/
theorem compressor_envelope_invariant (c : compressor_t)
    (tdb r am rm sr : ℝ) (ham : 0 < am) (hrm : 0 < rm) (hsr : 0 < sr)
    (blocks : List (List ℝ)) :
    (compressor_init c tdb r am rm sr).envelope = 0 ∧
    (0 < (compressor_init c tdb r am rm sr).attack_coef ∧
      (compressor_init c tdb r am rm sr).attack_coef < 1) ∧
    (0 < (compressor_init c tdb r am rm sr).release_coef ∧
      (compressor_init c tdb r am rm sr).release_coef < 1) ∧
    0 ≤ (blocks.foldl (fun comp b => (compressor_process comp b).2)
        (compressor_init c tdb r am rm sr)).envelope := by
  have hda : (0 : ℝ) < am * 0.001 * sr := by positivity
  have hdr : (0 : ℝ) < rm * 0.001 * sr := by positivity
  have ha1 : Real.exp (-1 / (am * 0.001 * sr)) < 1 := by
    rw [Real.exp_lt_one_iff, neg_div]
    exact neg_lt_zero.mpr (by positivity)
  have hr1 : Real.exp (-1 / (rm * 0.001 * sr)) < 1 := by
    rw [Real.exp_lt_one_iff, neg_div]
    exact neg_lt_zero.mpr (by positivity)
  have ha0 := Real.exp_pos (-1 / (am * 0.001 * sr))
  have hr0 := Real.exp_pos (-1 / (rm * 0.001 * sr))
  refine ⟨rfl, ⟨ha0, ha1⟩, ⟨hr0, hr1⟩, ?_⟩
  exact compressor_fold_env_nonneg blocks _ (le_of_lt ha0)
    (le_of_lt ha1) (le_of_lt hr0) (le_of_lt hr1) le_rfl

/-- Witness for the envelope invariant: attack 1 ms, release 1 ms, sample
rate 1 Hz, one block of one sample. -/
theorem compressor_envelope_invariant_witness :
    (compressor_init ⟨0, 0, 0, 0, 0⟩ 0 2 1 1 1).envelope = 0 ∧
    (0 < (compressor_init ⟨0, 0, 0, 0, 0⟩ 0 2 1 1 1).attack_coef ∧
      (compressor_init ⟨0, 0, 0, 0, 0⟩ 0 2 1 1 1).attack_coef < 1) ∧
    (0 < (compressor_init ⟨0, 0, 0, 0, 0⟩ 0 2 1 1 1).release_coef ∧
      (compressor_init ⟨0, 0, 0, 0, 0⟩ 0 2 1 1 1).release_coef < 1) ∧
    0 ≤ ([[1]].foldl (fun comp b => (compressor_process comp b).2)
        (compressor_init ⟨0, 0, 0, 0, 0⟩ 0 2 1 1 1)).envelope :=
  compressor_envelope_invariant ⟨0, 0, 0, 0, 0⟩ 0 2 1 1 1 (by norm_num)
    (by norm_num) (by norm_num) [[1]]

/-- The three stages in the chain's fixed order (spec, data model: an
ordered, fixed sequence of (enabled-flag, effect-instance) pairs in the
order Gain → Filter → Compressor). -/
inductive chain_stage where
  | gain
  | filter
  | compressor

/-- Modelled from the spec (§4.5): applying one stage's `process` to the
block in place, updating that stage's state inside the chain (the gain
stage is stateless across blocks, spec §3). -/
noncomputable def apply_stage (st : chain_stage) (chain : effect_chain_t)
    (buffer : List ℝ) : List ℝ × effect_chain_t :=
  match st with
  | chain_stage.gain => (gain_process chain.gain buffer, chain)
  | chain_stage.filter =>
      ((biquad_process chain.filter buffer).1,
       { chain with filter := (biquad_process chain.filter buffer).2 })
  | chain_stage.compressor =>
      ((compressor_process chain.compressor buffer).1,
       { chain with compressor :=
           (compressor_process chain.compressor buffer).2 })

/-- Modelled from the spec (§4.5): the enabled stages in the fixed order;
disabled stages are absent — skipped entirely. -/
def enabled_stages (chain : effect_chain_t) : List chain_stage :=
  (if chain.gain_enabled then [chain_stage.gain] else []) ++
    (if chain.filter_enabled then [chain_stage.filter] else []) ++
      (if chain.compressor_enabled then [chain_stage.compressor] else [])

/-- Modelled from the spec (§4.5): `process(block)` applies, in fixed
order, each enabled stage's `process` to the block in place. -/
noncomputable def effect_chain_spec_process (chain : effect_chain_t)
    (buffer : List ℝ) : List ℝ × effect_chain_t :=
  (enabled_stages chain).foldl
    (fun acc st => apply_stage st acc.2 acc.1) (buffer, chain)

/-- Claim C8. After `effect_chain_init` all three stages are disabled and
`effect_chain_process` is a pure passthrough (the block comes back
unchanged and no effect state changes); for every chain configuration —
all eight combinations of the three enable flags — `effect_chain_process`
applies exactly the enabled stages' process functions to the block, in the
fixed order gain → filter → compressor, skipping disabled stages (the
equality with the spec-side fold over `enabled_stages`, plus the explicit
all-enabled composition), and a disabled stage's state is neither read
(the output is independent of it) nor mutated (it passes through
unchanged; the gain stage is never mutated by `process`, matching the
source). -/
theorem effect_chain_spec (chain : effect_chain_t) (sample_rate : ℝ)
    (buffer : List ℝ) :
    ((effect_chain_init chain sample_rate).gain_enabled = false ∧
     (effect_chain_init chain sample_rate).filter_enabled = false ∧
     (effect_chain_init chain sample_rate).compressor_enabled = false) ∧
    effect_chain_process (effect_chain_init chain sample_rate) buffer =
      (buffer, effect_chain_init chain sample_rate) ∧
    effect_chain_process chain buffer =
      effect_chain_spec_process chain buffer ∧
    (chain.gain_enabled = true → chain.filter_enabled = true →
      chain.compressor_enabled = true →
      effect_chain_process chain buffer =
        ((compressor_process chain.compressor
            (biquad_process chain.filter
              (gain_process chain.gain buffer)).1).1,
         { chain with
           filter := (biquad_process chain.filter
             (gain_process chain.gain buffer)).2,
           compressor := (compressor_process chain.compressor
             (biquad_process chain.filter
               (gain_process chain.gain buffer)).1).2 })) ∧
    (effect_chain_process chain buffer).2.gain = chain.gain ∧
    (chain.gain_enabled = false → ∀ g : gain_effect_t,
      effect_chain_process { chain with gain := g } buffer =
        ((effect_chain_process chain buffer).1,
         { (effect_chain_process chain buffer).2 with gain := g })) ∧
    (chain.filter_enabled = false →
      (effect_chain_process chain buffer).2.filter = chain.filter ∧
      ∀ f : biquad_t,
        effect_chain_process { chain with filter := f } buffer =
          ((effect_chain_process chain buffer).1,
           { (effect_chain_process chain buffer).2 with filter := f })) ∧
    (chain.compressor_enabled = false →
      (effect_chain_process chain buffer).2.compressor =
        chain.compressor ∧
      ∀ c : compressor_t,
        effect_chain_process { chain with compressor := c } buffer =
          ((effect_chain_process chain buffer).1,
           { (effect_chain_process chain buffer).2 with
             compressor := c })) := by
  refine ⟨⟨rfl, rfl, rfl⟩, ?_, ?_, ?_, ?_, ?_, ?_, ?_⟩
  · rw [effect_chain_process]
    rfl
  · obtain ⟨ge, fe, ce, g0, f0, c0⟩ := chain
    cases ge <;> cases fe <;> cases ce <;>
      simp [effect_chain_process, effect_chain_spec_process,
        enabled_stages, apply_stage]
  · intro hg hf hc
    rw [effect_chain_process]
    simp only [hg, hf, hc]
    rfl
  · rw [effect_chain_process]
  · intro hg g
    rw [effect_chain_process, effect_chain_process]
    simp only [hg]
    cases hf : chain.filter_enabled <;>
      cases hc : chain.compressor_enabled <;> rfl
  · intro hf
    constructor
    · rw [effect_chain_process]
      simp only [hf]
      cases hg : chain.gain_enabled <;>
        cases hc : chain.compressor_enabled <;> rfl
    · intro f
      rw [effect_chain_process, effect_chain_process]
      simp only [hf]
      cases hg : chain.gain_enabled <;>
        cases hc : chain.compressor_enabled <;> rfl
  · intro hc
    constructor
    · rw [effect_chain_process]
      simp only [hc]
      cases hg : chain.gain_enabled <;>
        cases hf : chain.filter_enabled <;> rfl
    · intro c
      rw [effect_chain_process, effect_chain_process]
      simp only [hc]
      cases hg : chain.gain_enabled <;>
        cases hf : chain.filter_enabled <;> rfl

/-- Witness for the effect-chain specification: a concrete all-disabled
chain — the gain-disabled clause is exercised with a replaced gain state
and its hypothesis is discharged by `rfl`. -/
theorem effect_chain_spec_witness :
    effect_chain_process
        { gain_enabled := false, filter_enabled := false,
          compressor_enabled := false, gain := ⟨2⟩,
          filter := ⟨0, 0, 0, 0, 0, 0, 0, 0, 0⟩,
          compressor := ⟨1, 2, 0, 0, 0⟩ } [1, 2] =
      ((effect_chain_process
          { gain_enabled := false, filter_enabled := false,
            compressor_enabled := false, gain := ⟨1⟩,
            filter := ⟨0, 0, 0, 0, 0, 0, 0, 0, 0⟩,
            compressor := ⟨1, 2, 0, 0, 0⟩ } [1, 2]).1,
       { (effect_chain_process
          { gain_enabled := false, filter_enabled := false,
            compressor_enabled := false, gain := ⟨1⟩,
            filter := ⟨0, 0, 0, 0, 0, 0, 0, 0, 0⟩,
            compressor := ⟨1, 2, 0, 0, 0⟩ } [1, 2]).2 with
         gain := (⟨2⟩ : gain_effect_t) }) :=
  (effect_chain_spec
      { gain_enabled := false, filter_enabled := false,
        compressor_enabled := false, gain := ⟨1⟩,
        filter := ⟨0, 0, 0, 0, 0, 0, 0, 0, 0⟩,
        compressor := ⟨1, 2, 0, 0, 0⟩ } 48000 [1, 2]).2.2.2.2.2.1 rfl ⟨2⟩

/-! ## Memory-ordering annotations of the ring buffer's atomic accesses

The concurrency claim concerns which C11 `memory_order` tag each atomic
access carries.  The tags are static properties of the source; they are
recorded here verbatim so the claim about them can be settled.  (The
dynamic weak-memory semantics itself is outside the sequential embedding,
but the claim is about the annotations.) -/

/-- The C11 memory orders used in `ring_buffer.c`. -/
inductive memory_order where
  | relaxed
  | acquire
  | release
  | seq_cst
deriving DecidableEq

/-- `ring_buffer.c` line 49: the load of `write_index` inside
`ring_buffer_read_available` — the only load of the write cursor on
`ring_buffer_read`'s path (`ring_buffer_read` calls
`ring_buffer_read_available` and never loads `write_index` itself). -/
def read_available_write_index_load_order : memory_order :=
  memory_order.relaxed

/-- `ring_buffer.c` line 99: the load of `read_index` inside
`ring_buffer_read` (the reader's own cursor). -/
def read_read_index_load_order : memory_order := memory_order.acquire

/-- `ring_buffer.c` line 86: the store of `write_index` at the end of
`ring_buffer_write`. -/
def write_write_index_store_order : memory_order := memory_order.release

/-- `ring_buffer.c` line 117: the store of `read_index` at the end of
`ring_buffer_read`. -/
def read_read_index_store_order : memory_order := memory_order.relaxed

/-- Claim C9, code bug. The claim — and the spec — say `ring_buffer_read`
loads the write cursor with an acquire operation pairing with the writer's
release store.  In the source the write-cursor load on the read path
(`ring_buffer_read_available`, line 49) is `memory_order_relaxed`, and the
acquire is instead placed on the reader's own `read_index` load (line 99),
which only the reader itself writes and which therefore synchronises
nothing.  The writer's release store (line 86) is real, so its intended
acquire counterpart is missing. -/
theorem ring_buffer_read_acquire_misplaced :
    read_available_write_index_load_order = memory_order.relaxed ∧
    read_available_write_index_load_order ≠ memory_order.acquire ∧
    read_read_index_load_order = memory_order.acquire ∧
    write_write_index_store_order = memory_order.release := by
  refine ⟨rfl, ?_, rfl, rfl⟩
  decide
